import Mathlib

/-!
Verification development for the `zip32` crate: hardened-only hierarchical
deterministic key derivation (ZIP 32), its two tree instantiations
(ad-hoc/"arbitrary" and registered), diversifier indices, and seed
fingerprints.

Byte strings are modelled as `List Nat` with every element `< 256`; 64-bit
words are `Nat` reduced modulo `2 ^ 64` at every arithmetic operation.
-/

/-! ## BLAKE2b (RFC 7693), as used by the `blake2b_simd` dependency:
unkeyed, with a 16-byte personalization and a selectable digest length. -/

def wordMod : Nat := 2 ^ 64

def add64 (a b : Nat) : Nat := (a + b) % wordMod

def rotr64 (n x : Nat) : Nat := (x >>> n) ||| ((x <<< (64 - n)) % wordMod)

def blakeIV : List Nat :=
  [0x6a09e667f3bcc908, 0xbb67ae8584caa73b, 0x3c6ef372fe94f82b, 0xa54ff53a5f1d36f1,
   0x510e527fade682d1, 0x9b05688c2b3e6c1f, 0x1f83d9abfb41bd6b, 0x5be0cd19137e2179]

def blakeSigma : List (List Nat) :=
  [[0, 1, 2, 3, 4, 5, 6, 7, 8, 9, 10, 11, 12, 13, 14, 15],
   [14, 10, 4, 8, 9, 15, 13, 6, 1, 12, 0, 2, 11, 7, 5, 3],
   [11, 8, 12, 0, 5, 2, 15, 13, 10, 14, 3, 6, 7, 1, 9, 4],
   [7, 9, 3, 1, 13, 12, 11, 14, 2, 6, 5, 10, 4, 0, 15, 8],
   [9, 0, 5, 7, 2, 4, 10, 15, 14, 1, 11, 12, 6, 8, 3, 13],
   [2, 12, 6, 10, 0, 11, 8, 3, 4, 13, 7, 5, 15, 14, 1, 9],
   [12, 5, 1, 15, 14, 13, 4, 10, 0, 7, 6, 3, 9, 2, 8, 11],
   [13, 11, 7, 14, 12, 1, 3, 9, 5, 0, 15, 4, 8, 6, 2, 10],
   [6, 15, 14, 9, 11, 3, 0, 8, 12, 2, 13, 7, 1, 4, 10, 5],
   [10, 2, 8, 4, 7, 6, 1, 5, 15, 11, 9, 14, 3, 12, 13, 0]]

def blakeG (v : List Nat) (a b c d x y : Nat) : List Nat :=
  let va := add64 (add64 (v.getD a 0) (v.getD b 0)) x
  let vd := rotr64 32 ((v.getD d 0) ^^^ va)
  let vc := add64 (v.getD c 0) vd
  let vb := rotr64 24 ((v.getD b 0) ^^^ vc)
  let va2 := add64 (add64 va vb) y
  let vd2 := rotr64 16 (vd ^^^ va2)
  let vc2 := add64 vc vd2
  let vb2 := rotr64 63 (vb ^^^ vc2)
  (((v.set a va2).set b vb2).set c vc2).set d vd2

def blakeRound (m v s : List Nat) : List Nat :=
  let mi := fun i => m.getD (s.getD i 0) 0
  let v1 := blakeG v 0 4 8 12 (mi 0) (mi 1)
  let v2 := blakeG v1 1 5 9 13 (mi 2) (mi 3)
  let v3 := blakeG v2 2 6 10 14 (mi 4) (mi 5)
  let v4 := blakeG v3 3 7 11 15 (mi 6) (mi 7)
  let v5 := blakeG v4 0 5 10 15 (mi 8) (mi 9)
  let v6 := blakeG v5 1 6 11 12 (mi 10) (mi 11)
  let v7 := blakeG v6 2 7 8 13 (mi 12) (mi 13)
  blakeG v7 3 4 9 14 (mi 14) (mi 15)

/-- Little-endian interpretation of a byte list as a natural number. -/
def leVal (bytes : List Nat) : Nat :=
  bytes.foldr (fun b acc => b + 256 * acc) 0

/-- Splits a 128-byte block into sixteen little-endian 64-bit words. -/
def blockWords (block : List Nat) : List Nat :=
  (List.range 16).map (fun i => leVal ((block.drop (8 * i)).take 8))

def blakeCompress (h m : List Nat) (t : Nat) (last : Bool) : List Nat :=
  let v0 := h ++ blakeIV
  let v1 := v0.set 12 ((v0.getD 12 0) ^^^ (t % wordMod))
  let v2 := v1.set 13 ((v1.getD 13 0) ^^^ (t / wordMod % wordMod))
  let v3 := if last then v2.set 14 ((v2.getD 14 0) ^^^ (wordMod - 1)) else v2
  let vf := (List.range 12).foldl (fun v i => blakeRound m v (blakeSigma.getD (i % 10) [])) v3
  (List.range 8).map (fun i => (h.getD i 0) ^^^ (vf.getD i 0) ^^^ (vf.getD (i + 8) 0))

/-- Initial state for unkeyed BLAKE2b with the given digest length and 16-byte
personalization: parameter-block words 0 (digest length, fanout 1, depth 1),
6 and 7 (personalization) are XORed into the IV. -/
def blakeInit (digestLen : Nat) (personal : List Nat) : List Nat :=
  [(blakeIV.getD 0 0) ^^^ (0x01010000 + digestLen),
   blakeIV.getD 1 0, blakeIV.getD 2 0, blakeIV.getD 3 0,
   blakeIV.getD 4 0, blakeIV.getD 5 0,
   (blakeIV.getD 6 0) ^^^ leVal (personal.take 8),
   (blakeIV.getD 7 0) ^^^ leVal (personal.drop 8)]

def padBlock (msg : List Nat) : List Nat :=
  msg ++ List.replicate (128 - msg.length) 0

/-- Processes the message 128 bytes at a time; the fuel argument (instantiated
with the message length) makes the recursion structural. -/
def hashBlocks : Nat → List Nat → List Nat → Nat → List Nat
  | 0, h, msg, t => blakeCompress h (blockWords (padBlock msg)) (t + msg.length) true
  | fuel + 1, h, msg, t =>
    if msg.length ≤ 128 then blakeCompress h (blockWords (padBlock msg)) (t + msg.length) true
    else hashBlocks fuel (blakeCompress h (blockWords (msg.take 128)) (t + 128) false)
      (msg.drop 128) (t + 128)

/-- Serializes a 64-bit word as 8 little-endian bytes. -/
def wordLeBytes (w : Nat) : List Nat :=
  [w % 256, w / 0x100 % 256, w / 0x10000 % 256, w / 0x1000000 % 256,
   w / 0x100000000 % 256, w / 0x10000000000 % 256,
   w / 0x1000000000000 % 256, w / 0x100000000000000 % 256]

/-- Unkeyed BLAKE2b with a 16-byte personalization over a byte-list message. -/
def blake2b (digestLen : Nat) (personal msg : List Nat) : List Nat :=
  (((hashBlocks msg.length (blakeInit digestLen personal) msg 0).map wordLeBytes).flatten).take
    digestLen

/-! ## PRF-Expand and the hardened-only derivation engine (`hardened_only.rs`).

`PRF^Expand(key, t) = BLAKE2b-512("Zcash_ExpandSeed", key || t)`, from the
`zcash_spec` dependency. The child-derivation input set
`PrfExpand<([u8; 32], [u8; 4], [u8; 1], VariableLengthSlice)>` omits the lead
byte and tag entirely when the lead byte is zero and the tag is empty (the
backward-compatible no-tag encoding described in the ZIP 32 specification). -/

def prfExpandPersonal : List Nat :=
  [0x5a, 0x63, 0x61, 0x73, 0x68, 0x5f, 0x45, 0x78, 0x70, 0x61, 0x6e, 0x64, 0x53, 0x65, 0x65, 0x64]

def prfExpand (key t : List Nat) : List Nat :=
  blake2b 64 prfExpandPersonal (key ++ t)

/-- Input encoding for hardened-only child key derivation: domain separator
byte, parent secret key, 4-byte little-endian index, then — only when the
lead byte is nonzero or the tag is non-empty — the lead byte and the tag. -/
def ckdhInput (domain : Nat) (sk iBytes : List Nat) (lead : Nat) (tag : List Nat) : List Nat :=
  if lead = 0 ∧ tag = [] then domain :: (sk ++ iBytes)
  else domain :: (sk ++ iBytes ++ (lead :: tag))

/-- Context for hardened-only key derivation: a 16-byte master-key-generation
domain (BLAKE2b personalization) and a PRF-Expand domain separator byte. -/
structure HardContext where
  mkgDomain : List Nat
  ckdDomain : Nat

/-- An extended secret key: 32-byte secret plus 32-byte chain code. The Rust
type is generic over a `Context` type parameter; here the context is passed
explicitly to each operation. -/
structure HardenedOnlyKey where
  sk : List Nat
  chain_code : List Nat
deriving DecidableEq

def HardenedOnlyKey.from_bytes (I : List Nat) : HardenedOnlyKey :=
  ⟨I.take 32, I.drop 32⟩

/-- Master key generation: BLAKE2b-512 personalized with the context's MKG
domain over the IKM, split into secret (first 32 bytes) and chain code. -/
def HardenedOnlyKey.master (C : HardContext) (ikm : List Nat) : HardenedOnlyKey :=
  HardenedOnlyKey.from_bytes (blake2b 64 C.mkgDomain ikm)

/-- Serializes an index as 4 little-endian bytes (`u32::to_le_bytes`). -/
def toLE4 (i : Nat) : List Nat :=
  [i % 256, i / 0x100 % 256, i / 0x10000 % 256, i / 0x1000000 % 256]

def HardenedOnlyKey.ckdh_internal (C : HardContext) (k : HardenedOnlyKey) (index lead : Nat)
    (tag : List Nat) : List Nat :=
  prfExpand k.chain_code (ckdhInput C.ckdDomain k.sk (toLE4 index) lead tag)

def HardenedOnlyKey.derive_child_with_tag (C : HardContext) (k : HardenedOnlyKey) (index : Nat)
    (tag : List Nat) : HardenedOnlyKey :=
  HardenedOnlyKey.from_bytes (k.ckdh_internal C index 0 tag)

def HardenedOnlyKey.derive_child (C : HardContext) (k : HardenedOnlyKey) (index : Nat) :
    HardenedOnlyKey :=
  k.derive_child_with_tag C index []

/-! ## Child indices (`lib.rs`). A `ChildIndex` is a `u32` with the hardened
bit (bit 31) set; we model it as the underlying `Nat` value. -/

namespace ChildIndex

/-- Parses a ZIP 32 child index; `none` if the hardened bit is not set. -/
def from_index (i : Nat) : Option Nat :=
  if i ≥ 2 ^ 31 then some i else none

/-- Constructs a hardened child index from a value. The Rust function asserts
`value < (1 << 31)` and panics otherwise; the panic is modelled as `none`. -/
def hardened (value : Nat) : Option Nat :=
  if value < 2 ^ 31 then some (value + 2 ^ 31) else none

end ChildIndex

/-! ## IKM assembly.

Modelled from the spec: the crate-root helper `with_ikm` (its defining module
is not among the provided sources; only its callers and a test vector for its
output are) assembles the master-key IKM as
`(len(context_string) as a single byte, context_string, len(seed) as a single
byte, seed)`. -/

def with_ikm (context_string seed : List Nat) : List Nat :=
  [context_string.length] ++ context_string ++ [seed.length] ++ seed

/-! ## Ad-hoc ("arbitrary") tree instantiation (`arbitrary.rs`). -/

namespace Arbitrary

/-- The `Adhoc` context: MKG domain `*b"ZcashArbitraryKD"` and the
`PrfExpand::ADHOC_ZIP32_CHILD` domain separator. -/
def ctx : HardContext :=
  ⟨[0x5a, 0x63, 0x61, 0x73, 0x68, 0x41, 0x72, 0x62, 0x69, 0x74, 0x72, 0x61, 0x72, 0x79, 0x4b,
    0x44], 0xab⟩

def master (context_string seed : List Nat) : HardenedOnlyKey :=
  HardenedOnlyKey.master ctx (with_ikm context_string seed)

def derive_child (k : HardenedOnlyKey) (index : Nat) : HardenedOnlyKey :=
  k.derive_child ctx index

/-- Derives an ad-hoc key at the given path from the given seed. -/
def from_path (context_string seed : List Nat) (path : List Nat) : HardenedOnlyKey :=
  path.foldl derive_child (master context_string seed)

end Arbitrary

/-! ## Registered tree instantiation (`registered.rs`). -/

inductive DerivationError where
  | SeedInvalid
  | ContextStringInvalid
  | SubpathEmpty
deriving DecidableEq

/-- A registered derivation path element: a child index and a tag. -/
structure PathElement where
  child_index : Nat
  tag : List Nat

namespace Registered

/-- The `Registered` context: MKG domain `*b"ZIPRegistered_KD"` and the
`PrfExpand::REGISTERED_ZIP32_CHILD` domain separator. -/
def ctx : HardContext :=
  ⟨[0x5a, 0x49, 0x50, 0x52, 0x65, 0x67, 0x69, 0x73, 0x74, 0x65, 0x72, 0x65, 0x64, 0x5f, 0x4b,
    0x44], 0xac⟩

def master (context_string seed : List Nat) : HardenedOnlyKey :=
  HardenedOnlyKey.master ctx (with_ikm context_string seed)

def derive_child_with_tag (k : HardenedOnlyKey) (index : Nat) (tag : List Nat) :
    HardenedOnlyKey :=
  k.derive_child_with_tag ctx index tag

def derive_child (k : HardenedOnlyKey) (index : Nat) : HardenedOnlyKey :=
  derive_child_with_tag k index []

/-- Full-width child cryptovalue derivation: the raw 64-byte `ckdh_internal`
output with lead byte `1`, not split into secret and chain code. -/
def derive_child_cryptovalue (k : HardenedOnlyKey) (index : Nat) (tag : List Nat) : List Nat :=
  k.ckdh_internal ctx index 1 tag

/-- Derives a key for a registered application protocol at the given subpath.
`zip_number` is a `u16` in the Rust signature, modelled by reducing mod
`2 ^ 16`; `ChildIndex.hardened` therefore never hits its panic branch, whose
unreachable arm is discharged with `getD`. -/
def from_subpath (context_string seed : List Nat) (zip_number : Nat)
    (subpath : List PathElement) : Except DerivationError HardenedOnlyKey :=
  if context_string.length = 0 ∨ context_string.length > 252 then
    Except.error DerivationError.ContextStringInvalid
  else if seed.length < 32 ∨ seed.length > 252 then
    Except.error DerivationError.SeedInvalid
  else
    Except.ok (subpath.foldl (fun k e => derive_child_with_tag k e.child_index e.tag)
      (derive_child (master context_string seed)
        ((ChildIndex.hardened (zip_number % 2 ^ 16)).getD 0)))

/-- Derives a 64-byte cryptovalue at the given non-empty subpath: folds
tagged child derivation over all but the last element, then performs
full-width cryptovalue derivation at the last element. -/
def cryptovalue_from_subpath (context_string seed : List Nat) (zip_number : Nat)
    (subpath : List PathElement) : Except DerivationError (List Nat) :=
  if context_string.length = 0 ∨ context_string.length > 252 then
    Except.error DerivationError.ContextStringInvalid
  else if seed.length < 32 ∨ seed.length > 252 then
    Except.error DerivationError.SeedInvalid
  else if subpath.isEmpty then
    Except.error DerivationError.SubpathEmpty
  else
    match subpath.getLast? with
    | none => Except.error DerivationError.SubpathEmpty
    | some elem =>
      Except.ok (derive_child_cryptovalue
        ((subpath.take (subpath.length - 1)).foldl
          (fun k e => derive_child_with_tag k e.child_index e.tag)
          (derive_child (master context_string seed)
            ((ChildIndex.hardened (zip_number % 2 ^ 16)).getD 0)))
        elem.child_index elem.tag)

end Registered

/-! ## Diversifier indices (`lib.rs`). An 88-bit little-endian integer stored
as 11 bytes. `increment` walks the bytes from least significant, wrapping each
byte; running off the end is overflow. The pair returned is the final byte
state together with a success flag (`false` = overflow error). -/

def incrementBytes : List Nat → List Nat × Bool
  | [] => ([], false)
  | b :: rest =>
    let b1 := (b + 1) % 256
    if b1 ≠ 0 then (b1 :: rest, true)
    else
      let r := incrementBytes rest
      (0 :: r.1, r.2)

/-! ## Seed fingerprints (`fingerprint.rs`). -/

def zip32SeedFpPersonal : List Nat :=
  [0x5a, 0x63, 0x61, 0x73, 0x68, 0x5f, 0x48, 0x44, 0x5f, 0x53, 0x65, 0x65, 0x64, 0x5f, 0x46,
   0x50]

/-- Derives the fingerprint of the given seed bytes: BLAKE2b-256 personalized
with `"Zcash_HD_Seed_FP"` over the single length byte followed by the seed;
`none` when the seed length is outside `32..=252`. -/
def SeedFingerprint.from_seed (seed_bytes : List Nat) : Option (List Nat) :=
  if 32 ≤ seed_bytes.length ∧ seed_bytes.length ≤ 252 then
    some (blake2b 32 zip32SeedFpPersonal (seed_bytes.length :: seed_bytes))
  else none

/-! ## Bech32m (BIP-350), as used by the `bech32` dependency for the textual
form of seed fingerprints. Strings are modelled as lists of ASCII codes. -/

def bech32Charset : List Nat :=
  [0x71, 0x70, 0x7a, 0x72, 0x79, 0x39, 0x78, 0x38, 0x67, 0x66, 0x32, 0x74, 0x76, 0x64, 0x77,
   0x30, 0x73, 0x33, 0x6a, 0x6e, 0x35, 0x34, 0x6b, 0x68, 0x63, 0x65, 0x36, 0x6d, 0x75, 0x61,
   0x37, 0x6c]

def genTerms (b : Nat) : Nat :=
  (if b.testBit 0 then 0x3b6a57b2 else 0) ^^^ (if b.testBit 1 then 0x26508e6d else 0) ^^^
  (if b.testBit 2 then 0x1ea119fa else 0) ^^^ (if b.testBit 3 then 0x3d4233dd else 0) ^^^
  (if b.testBit 4 then 0x2a1462b3 else 0)

def polymodStepBase (chk : Nat) : Nat :=
  ((chk &&& 0x1ffffff) <<< 5) ^^^ genTerms (chk >>> 25)

def polymodStep (chk v : Nat) : Nat := polymodStepBase chk ^^^ v

def polymod (values : List Nat) : Nat := values.foldl polymodStep 1

def hrpExpand (hrp : List Nat) : List Nat :=
  hrp.map (· >>> 5) ++ [0] ++ hrp.map (· &&& 31)

/-- The Bech32m checksum residue constant. -/
def bech32mConst : Nat := 0x2bc830a3

def createChecksum (hrp data : List Nat) : List Nat :=
  let pm := polymod (hrpExpand hrp ++ data ++ [0, 0, 0, 0, 0, 0]) ^^^ bech32mConst
  [(pm >>> 25) &&& 31, (pm >>> 20) &&& 31, (pm >>> 15) &&& 31, (pm >>> 10) &&& 31,
   (pm >>> 5) &&& 31, pm &&& 31]

/-- Big-endian value of a bit list. -/
def bitsVal (bits : List Bool) : Nat :=
  bits.foldl (fun acc b => 2 * acc + (if b then 1 else 0)) 0

def byteToBits (b : Nat) : List Bool :=
  [b.testBit 7, b.testBit 6, b.testBit 5, b.testBit 4, b.testBit 3, b.testBit 2, b.testBit 1,
   b.testBit 0]

def bytesToBits (bs : List Nat) : List Bool := (bs.map byteToBits).flatten

/-- Regroups a bit stream into 5-bit field elements, zero-padding the final
incomplete group (the `u8 → Fe32` direction of `convert_bits` with padding). -/
def bitsToFe32s : List Bool → List Nat
  | b0 :: b1 :: b2 :: b3 :: b4 :: rest => bitsVal [b0, b1, b2, b3, b4] :: bitsToFe32s rest
  | [] => []
  | rest => [bitsVal (rest ++ List.replicate (5 - rest.length) false)]

def nat5Bits (d : Nat) : List Bool :=
  [d.testBit 4, d.testBit 3, d.testBit 2, d.testBit 1, d.testBit 0]

def fe32sToBits (ds : List Nat) : List Bool := (ds.map nat5Bits).flatten

/-- Regroups a bit stream into bytes, discarding the final incomplete group
(the `Fe32 → u8` direction, as `CheckedHrpstring::byte_iter` does). -/
def bitsToBytes : List Bool → List Nat
  | b0 :: b1 :: b2 :: b3 :: b4 :: b5 :: b6 :: b7 :: rest =>
    bitsVal [b0, b1, b2, b3, b4, b5, b6, b7] :: bitsToBytes rest
  | _ => []

def fe32sToBytes (ds : List Nat) : List Nat := bitsToBytes (fe32sToBits ds)

/-- Bech32m encoding: `hrp ++ "1" ++ charset(data32 ++ checksum)`. -/
def bech32mEncode (hrp data : List Nat) : List Nat :=
  let d32 := bitsToFe32s (bytesToBits data)
  hrp ++ [49] ++ (d32 ++ createChecksum hrp d32).map (fun d => bech32Charset.getD d 0)

inductive Bech32DecodeError where
  | MixedCase
  | MissingSeparator
  | InvalidCharacter
  | InvalidHrp
  | InvalidChecksumLength
  | InvalidChecksum
deriving DecidableEq

def isUpperChar (c : Nat) : Bool := decide (65 ≤ c ∧ c ≤ 90)

def isLowerChar (c : Nat) : Bool := decide (97 ≤ c ∧ c ≤ 122)

def toLowerChar (c : Nat) : Nat := if 65 ≤ c ∧ c ≤ 90 then c + 32 else c

/-- Splits a string at the last separator character `'1'`: returns the part
before it and the part after it, or `none` when there is no separator. -/
def splitLastSep (s : List Nat) : Option (List Nat × List Nat) :=
  match s.reverse.dropWhile (fun c => c ≠ 49) with
  | [] => none
  | _ :: revHrp => some (revHrp.reverse, (s.reverse.takeWhile (fun c => c ≠ 49)).reverse)

/-- Maps data-part characters back to 5-bit values through the charset. -/
def mapCharsetRev : List Nat → Option (List Nat)
  | [] => some []
  | c :: rest =>
    match bech32Charset.indexOf? (toLowerChar c), mapCharsetRev rest with
    | some v, some vs => some (v :: vs)
    | _, _ => none

/-- Checked Bech32m parse (`CheckedHrpstring::new::<Bech32m>`): rejects mixed
case, requires a separator, a valid HRP and data characters, and a valid
Bech32m checksum; returns the (lowercased) HRP and the data-part 5-bit values
with the 6 checksum elements removed. -/
def checkedHrpstring (s : List Nat) : Except Bech32DecodeError (List Nat × List Nat) :=
  if s.any isUpperChar ∧ s.any isLowerChar then Except.error Bech32DecodeError.MixedCase
  else
    match splitLastSep (s.map toLowerChar) with
    | none => Except.error Bech32DecodeError.MissingSeparator
    | some (hrp, dataChars) =>
      if hrp.length = 0 ∨ hrp.length > 83 ∨ ¬ hrp.all (fun c => 33 ≤ c ∧ c ≤ 126) then
        Except.error Bech32DecodeError.InvalidHrp
      else
        match mapCharsetRev dataChars with
        | none => Except.error Bech32DecodeError.InvalidCharacter
        | some values =>
          if values.length < 6 then Except.error Bech32DecodeError.InvalidChecksumLength
          else if polymod (hrpExpand hrp ++ values) ≠ bech32mConst then
            Except.error Bech32DecodeError.InvalidChecksum
          else Except.ok (hrp, values.take (values.length - 6))

/-- ASCII codes of the human-readable prefix `"zip32seedfp"`. -/
def seedFpHrp : List Nat :=
  [0x7a, 0x69, 0x70, 0x33, 0x32, 0x73, 0x65, 0x65, 0x64, 0x66, 0x70]

inductive ParseError where
  | InvalidLength
  | NotABech32mString (err : Bech32DecodeError)
  | NotASeedFingerprint
deriving DecidableEq

deriving instance DecidableEq for Except

/-- `FromStr for SeedFingerprint`: Bech32m-parse the string, require the seed
fingerprint HRP, then require a 32-byte payload. -/
def SeedFingerprint.from_str (s : List Nat) : Except ParseError (List Nat) :=
  match checkedHrpstring s with
  | Except.error e => Except.error (ParseError.NotABech32mString e)
  | Except.ok (hrp, values) =>
    if hrp = seedFpHrp then
      let data := fe32sToBytes values
      if data.length = 32 then Except.ok data else Except.error ParseError.InvalidLength
    else Except.error ParseError.NotASeedFingerprint

/-- `Display for SeedFingerprint`: Bech32m encoding under the seed
fingerprint HRP. -/
def SeedFingerprint.display (fp : List Nat) : List Nat := bech32mEncode seedFpHrp fp

/-! ## Test-vector inputs, from the crate's test modules: the context string
`"Zcash test vectors"`, the seed `00 01 .. 1f`, and the tag
`"trans rights are human rights"`. -/

def tvContext : List Nat :=
  [0x5a, 0x63, 0x61, 0x73, 0x68, 0x20, 0x74, 0x65, 0x73, 0x74, 0x20, 0x76, 0x65, 0x63, 0x74,
   0x6f, 0x72, 0x73]

def tvSeed : List Nat :=
  [0x00, 0x01, 0x02, 0x03, 0x04, 0x05, 0x06, 0x07, 0x08, 0x09, 0x0a, 0x0b, 0x0c, 0x0d, 0x0e,
   0x0f, 0x10, 0x11, 0x12, 0x13, 0x14, 0x15, 0x16, 0x17, 0x18, 0x19, 0x1a, 0x1b, 0x1c, 0x1d,
   0x1e, 0x1f]

def tvTag : List Nat :=
  [0x74, 0x72, 0x61, 0x6e, 0x73, 0x20, 0x72, 0x69, 0x67, 0x68, 0x74, 0x73, 0x20, 0x61, 0x72,
   0x65, 0x20, 0x68, 0x75, 0x6d, 0x61, 0x6e, 0x20, 0x72, 0x69, 0x67, 0x68, 0x74, 0x73]

/-- The registered subtree-root key for ZIP number 1 at the test-vector
context string and seed (`m_{context} / 1'`). -/
def tvRegKey : HardenedOnlyKey :=
  Registered.derive_child (Registered.master tvContext tvSeed) 0x80000001

/-- The key that a successful `Registered.from_subpath` returns: the fold of
tagged child derivation over the subpath, started from the subtree root at
the hardened ZIP number. -/
def regKey (cs seed : List Nat) (zip : Nat) (subpath : List PathElement) : HardenedOnlyKey :=
  subpath.foldl (fun k e => Registered.derive_child_with_tag k e.child_index e.tag)
    (Registered.derive_child (Registered.master cs seed)
      ((ChildIndex.hardened (zip % 2 ^ 16)).getD 0))

/-- The published fingerprint of the test-vector seed (`de ff 60 4c ...`). -/
def tvFingerprint : List Nat :=
  [0xde, 0xff, 0x60, 0x4c, 0x24, 0x67, 0x10, 0xf7, 0x17, 0x6d, 0xea, 0xd0, 0x2a, 0xa7, 0x46,
   0xf2, 0xfd, 0x8d, 0x53, 0x89, 0xf7, 0x07, 0x25, 0x56, 0xdc, 0xb5, 0x55, 0xfd, 0xbe, 0x5e,
   0x3a, 0xe3]

/-! ## Theorems -/

set_option maxRecDepth 1000000

theorem leVal_cons (b : Nat) (rest : List Nat) :
    leVal (b :: rest) = b + 256 * leVal rest := rfl

/-- Helper for C10: full characterization of `incrementBytes` on byte lists of
any length: the all-`0xff` list rolls over to all zeroes with the overflow
flag, every other list increments its little-endian value by one. -/
theorem incrementBytes_spec (d : List Nat) (hbytes : ∀ b ∈ d, b < 256) :
    (d = List.replicate d.length 255 →
      incrementBytes d = (List.replicate d.length 0, false)) ∧
    (d ≠ List.replicate d.length 255 →
      (incrementBytes d).2 = true ∧ leVal (incrementBytes d).1 = leVal d + 1 ∧
      (incrementBytes d).1.length = d.length ∧ ∀ b ∈ (incrementBytes d).1, b < 256) := by
  induction d with
  | nil => simp [incrementBytes]
  | cons b rest ih =>
    have hb : b < 256 := hbytes b (by simp)
    have hrest : ∀ x ∈ rest, x < 256 := fun x hx => hbytes x (by simp [hx])
    have ih' := ih hrest
    by_cases hb255 : b = 255
    · subst hb255
      have hstep : incrementBytes (255 :: rest) =
          (0 :: (incrementBytes rest).1, (incrementBytes rest).2) := by
        simp [incrementBytes]
      by_cases hrep : rest = List.replicate rest.length 255
      · constructor
        · intro _
          rw [hstep, (ih'.1 hrep)]
          simp [List.replicate_succ]
        · intro hne
          exfalso
          apply hne
          simp [List.replicate_succ]
          exact hrep
      · constructor
        · intro heq
          exfalso
          apply hrep
          have := heq
          simp [List.replicate_succ] at this
          exact this
        · intro _
          obtain ⟨hflag, hval, hlen, hbnd⟩ := ih'.2 hrep
          refine ⟨by rw [hstep]; exact hflag, ?_, by rw [hstep]; simp [hlen], ?_⟩
          · rw [hstep]
            simp only [leVal_cons, hval]
            omega
          · rw [hstep]
            intro x hx
            simp at hx
            rcases hx with h0 | hmem
            · omega
            · exact hbnd x hmem
    · have hlt : b + 1 < 256 := by omega
      have hstep : incrementBytes (b :: rest) = ((b + 1) :: rest, true) := by
        simp [incrementBytes, Nat.mod_eq_of_lt hlt]
      constructor
      · intro heq
        exfalso
        simp [List.replicate_succ] at heq
        exact hb255 heq.1
      · intro _
        rw [hstep]
        refine ⟨rfl, by simp [leVal_cons]; omega, by simp, ?_⟩
        intro x hx
        simp at hx
        rcases hx with h0 | hmem
        · omega
        · exact hrest x hmem

/-- C10: for an 11-byte diversifier index, `increment` succeeds and adds one
to the 88-bit little-endian value exactly when the bytes are not all `0xff`;
on the all-`0xff` input it reports overflow and leaves the bytes all zero. -/
theorem diversifier_index_increment_spec (d : List Nat) (hlen : d.length = 11)
    (hbytes : ∀ b ∈ d, b < 256) :
    (d ≠ List.replicate 11 255 →
      (incrementBytes d).2 = true ∧ leVal (incrementBytes d).1 = leVal d + 1 ∧
      (incrementBytes d).1.length = 11 ∧ ∀ b ∈ (incrementBytes d).1, b < 256) ∧
    (d = List.replicate 11 255 → incrementBytes d = (List.replicate 11 0, false)) := by
  have h := incrementBytes_spec d hbytes
  rw [hlen] at h
  exact ⟨h.2, h.1⟩

/-- Witness for C10 at the concrete input `[2, 255, 0, 0, 0, 0, 0, 0, 0, 0, 0]`. -/
theorem diversifier_index_increment_spec_witness :
    (incrementBytes [2, 255, 0, 0, 0, 0, 0, 0, 0, 0, 0]).2 = true ∧
    leVal (incrementBytes [2, 255, 0, 0, 0, 0, 0, 0, 0, 0, 0]).1 =
      leVal [2, 255, 0, 0, 0, 0, 0, 0, 0, 0, 0] + 1 := by
  have h := (diversifier_index_increment_spec [2, 255, 0, 0, 0, 0, 0, 0, 0, 0, 0]
    (by decide) (by decide)).1 (by decide)
  exact ⟨h.1, h.2.1⟩

/-- C6: `ChildIndex.from_index` returns `none` exactly below `2 ^ 31` and the
identity above it; `ChildIndex.hardened` on `v < 2 ^ 31` succeeds (does not
panic) and returns `v + 2 ^ 31`, which has the hardened bit set. -/
theorem child_index_hardened_spec (i v : Nat) (hi : i < 2 ^ 32) (hv : v < 2 ^ 31) :
    (i < 2 ^ 31 → ChildIndex.from_index i = none) ∧
    (2 ^ 31 ≤ i → ChildIndex.from_index i = some i) ∧
    ChildIndex.hardened v = some (v + 2 ^ 31) ∧ 2 ^ 31 ≤ v + 2 ^ 31 := by
  unfold ChildIndex.from_index ChildIndex.hardened
  refine ⟨fun h => ?_, fun h => ?_, ?_, ?_⟩
  · rw [if_neg]; omega
  · rw [if_pos h]
  · rw [if_pos hv]
  · omega

/-- Witness for C6 at `i = 2 ^ 31 + 5` and `v = 7`. -/
theorem child_index_hardened_spec_witness :
    (2147483653 < 2 ^ 31 → ChildIndex.from_index 2147483653 = none) ∧
    (2 ^ 31 ≤ 2147483653 → ChildIndex.from_index 2147483653 = some 2147483653) ∧
    ChildIndex.hardened 7 = some (7 + 2 ^ 31) ∧ 2 ^ 31 ≤ 7 + 2 ^ 31 :=
  child_index_hardened_spec 2147483653 7 (by decide) (by decide)

/-- C8: `SeedFingerprint.from_seed` returns `none` exactly when the seed
length is outside `32..=252`, and otherwise the personalized BLAKE2b-256 hash
of the single length byte followed by the seed (a function of the seed only —
no derivation context enters the definition). -/
theorem seed_fingerprint_from_seed_spec (seed : List Nat) :
    (SeedFingerprint.from_seed seed = none ↔ seed.length < 32 ∨ 252 < seed.length) ∧
    (32 ≤ seed.length → seed.length ≤ 252 →
      SeedFingerprint.from_seed seed =
        some (blake2b 32 zip32SeedFpPersonal (seed.length :: seed))) := by
  unfold SeedFingerprint.from_seed
  constructor
  · by_cases h : 32 ≤ seed.length ∧ seed.length ≤ 252
    · rw [if_pos h]
      simp
      omega
    · rw [if_neg h]
      simp
      omega
  · intro h1 h2
    rw [if_pos ⟨h1, h2⟩]

/-- Witness for C8 at the 32-byte test-vector seed. -/
theorem seed_fingerprint_from_seed_spec_witness :
    SeedFingerprint.from_seed tvSeed =
      some (blake2b 32 zip32SeedFpPersonal (tvSeed.length :: tvSeed)) :=
  (seed_fingerprint_from_seed_spec tvSeed).2 (by decide) (by decide)

/-- Helper for C1/C2: on validated inputs the registered `from_subpath`
succeeds with the folded key. -/
theorem from_subpath_ok (cs seed : List Nat) (zip : Nat) (subpath : List PathElement)
    (h1 : cs.length ≠ 0) (h2 : cs.length ≤ 252)
    (h3 : 32 ≤ seed.length) (h4 : seed.length ≤ 252) :
    Registered.from_subpath cs seed zip subpath = Except.ok (regKey cs seed zip subpath) := by
  unfold Registered.from_subpath regKey
  rw [if_neg (by omega), if_neg (by omega)]

/-- C3: the registered tree's two public entry points return precisely the
documented recoverable errors — `ContextStringInvalid` for an empty or
oversized context string (checked first), `SeedInvalid` for an out-of-bounds
seed length, `SubpathEmpty` (for `cryptovalue_from_subpath` only) for an
empty subpath — and succeed in every other case. -/
theorem registered_error_handling_spec (cs seed : List Nat) (zip : Nat)
    (subpath : List PathElement) :
    (cs.length = 0 ∨ cs.length > 252 →
      Registered.from_subpath cs seed zip subpath =
        Except.error DerivationError.ContextStringInvalid ∧
      Registered.cryptovalue_from_subpath cs seed zip subpath =
        Except.error DerivationError.ContextStringInvalid) ∧
    (¬(cs.length = 0 ∨ cs.length > 252) → seed.length < 32 ∨ seed.length > 252 →
      Registered.from_subpath cs seed zip subpath = Except.error DerivationError.SeedInvalid ∧
      Registered.cryptovalue_from_subpath cs seed zip subpath =
        Except.error DerivationError.SeedInvalid) ∧
    (¬(cs.length = 0 ∨ cs.length > 252) → ¬(seed.length < 32 ∨ seed.length > 252) →
      (∃ k, Registered.from_subpath cs seed zip subpath = Except.ok k) ∧
      (subpath = [] →
        Registered.cryptovalue_from_subpath cs seed zip subpath =
          Except.error DerivationError.SubpathEmpty) ∧
      (subpath ≠ [] →
        ∃ v, Registered.cryptovalue_from_subpath cs seed zip subpath = Except.ok v)) := by
  refine ⟨fun hcs => ?_, fun hcs hseed => ?_, fun hcs hseed => ?_⟩
  · unfold Registered.from_subpath Registered.cryptovalue_from_subpath
    rw [if_pos hcs, if_pos hcs]
    exact ⟨rfl, rfl⟩
  · unfold Registered.from_subpath Registered.cryptovalue_from_subpath
    rw [if_neg hcs, if_neg hcs, if_pos hseed, if_pos hseed]
    exact ⟨rfl, rfl⟩
  · refine ⟨⟨regKey cs seed zip subpath,
      from_subpath_ok cs seed zip subpath (by omega) (by omega) (by omega) (by omega)⟩,
      fun hempty => ?_, fun hne => ?_⟩
    · unfold Registered.cryptovalue_from_subpath
      rw [if_neg hcs, if_neg hseed, if_pos (by simp [hempty])]
    · unfold Registered.cryptovalue_from_subpath
      rw [if_neg hcs, if_neg hseed, if_neg (by simp [hne])]
      rcases hlast : subpath.getLast? with _ | elem
      · exact absurd (List.getLast?_eq_none_iff.mp hlast) hne
      · exact ⟨_, rfl⟩

/-- Witness for C3: one application of the theorem per error case and one for
the success case, at concrete inputs. -/
theorem registered_error_handling_spec_witness :
    Registered.from_subpath [] tvSeed 1 [] =
      Except.error DerivationError.ContextStringInvalid ∧
    Registered.from_subpath [1] [] 1 [] = Except.error DerivationError.SeedInvalid ∧
    Registered.cryptovalue_from_subpath [1] tvSeed 1 [] =
      Except.error DerivationError.SubpathEmpty ∧
    (∃ k, Registered.from_subpath [1] tvSeed 1 [] = Except.ok k) := by
  refine ⟨((registered_error_handling_spec [] tvSeed 1 []).1 (by decide)).1,
    ((registered_error_handling_spec [1] [] 1 []).2.1 (by decide) (by decide)).1, ?_, ?_⟩
  · exact (((registered_error_handling_spec [1] tvSeed 1 []).2.2 (by decide)
      (by decide)).2.1 rfl)
  · exact ((registered_error_handling_spec [1] tvSeed 1 []).2.2 (by decide) (by decide)).1

/-- C1: on validated inputs, `Registered.from_subpath` returns `Ok` of the
key obtained from the registered master key by one hardened, untagged child
derivation at the ZIP number and then a left fold of tagged child derivation
over the subpath elements in order. -/
theorem from_subpath_spec (cs seed : List Nat) (zip : Nat) (subpath : List PathElement)
    (hcs : 1 ≤ cs.length ∧ cs.length ≤ 252)
    (hseed : 32 ≤ seed.length ∧ seed.length ≤ 252) (hzip : zip < 2 ^ 16) :
    ∃ hidx, ChildIndex.hardened zip = some hidx ∧
      Registered.from_subpath cs seed zip subpath =
        Except.ok (subpath.foldl
          (fun k e => Registered.derive_child_with_tag k e.child_index e.tag)
          (Registered.derive_child (Registered.master cs seed) hidx)) := by
  refine ⟨zip + 2 ^ 31, ?_, ?_⟩
  · unfold ChildIndex.hardened
    rw [if_pos (by omega)]
  · rw [from_subpath_ok cs seed zip subpath (by omega) (by omega) (by omega) (by omega)]
    unfold regKey ChildIndex.hardened
    rw [Nat.mod_eq_of_lt hzip, if_pos (by omega)]
    rfl

/-- Witness for C1 at concrete valid inputs. -/
theorem from_subpath_spec_witness :
    ∃ hidx, ChildIndex.hardened 1 = some hidx ∧
      Registered.from_subpath [1] tvSeed 1 [PathElement.mk 2147483650 tvTag] =
        Except.ok ([PathElement.mk 2147483650 tvTag].foldl
          (fun k e => Registered.derive_child_with_tag k e.child_index e.tag)
          (Registered.derive_child (Registered.master [1] tvSeed) hidx)) :=
  from_subpath_spec [1] tvSeed 1 [PathElement.mk 2147483650 tvTag]
    (by decide) (by decide) (by decide)

/-- C2: on validated inputs, `Registered.cryptovalue_from_subpath` rejects an
empty subpath with `SubpathEmpty`, and on a non-empty subpath returns `Ok` of
the full-width (lead byte `0x01`, unsplit 64-byte) child cryptovalue at the
last element's index and tag, derived from the key that `from_subpath` would
produce for all elements but the last. -/
theorem cryptovalue_from_subpath_spec (cs seed : List Nat) (zip : Nat)
    (subpath : List PathElement)
    (hcs : 1 ≤ cs.length ∧ cs.length ≤ 252)
    (hseed : 32 ≤ seed.length ∧ seed.length ≤ 252) :
    (subpath = [] →
      Registered.cryptovalue_from_subpath cs seed zip subpath =
        Except.error DerivationError.SubpathEmpty) ∧
    (∀ front last, subpath = front ++ [last] →
      ∃ k, Registered.from_subpath cs seed zip front = Except.ok k ∧
        Registered.cryptovalue_from_subpath cs seed zip subpath =
          Except.ok (Registered.derive_child_cryptovalue k last.child_index last.tag)) := by
  constructor
  · intro hempty
    unfold Registered.cryptovalue_from_subpath
    rw [if_neg (by omega), if_neg (by omega), if_pos (by simp [hempty])]
  · intro front last hsplit
    refine ⟨regKey cs seed zip front,
      from_subpath_ok cs seed zip front (by omega) (by omega) (by omega) (by omega), ?_⟩
    unfold Registered.cryptovalue_from_subpath
    rw [if_neg (by omega), if_neg (by omega), if_neg (by simp [hsplit])]
    subst hsplit
    rw [List.getLast?_concat]
    unfold regKey
    have hlen : (front ++ [last]).length - 1 = front.length := by simp
    rw [hlen, List.take_left]

/-- Witness for C2 at concrete valid inputs. -/
theorem cryptovalue_from_subpath_spec_witness :
    (Registered.cryptovalue_from_subpath [1] tvSeed 1 [] =
      Except.error DerivationError.SubpathEmpty) ∧
    ∃ k, Registered.from_subpath [1] tvSeed 1 [] = Except.ok k ∧
      Registered.cryptovalue_from_subpath [1] tvSeed 1 [PathElement.mk 2147483650 tvTag] =
        Except.ok (Registered.derive_child_cryptovalue k 2147483650 tvTag) := by
  constructor
  · exact (cryptovalue_from_subpath_spec [1] tvSeed 1 [] (by decide) (by decide)).1 rfl
  · exact (cryptovalue_from_subpath_spec [1] tvSeed 1 [PathElement.mk 2147483650 tvTag]
      (by decide) (by decide)).2 [] (PathElement.mk 2147483650 tvTag) rfl

/-- C5: the first two published ad-hoc derivation test vectors, computed by
kernel evaluation of the embedded BLAKE2b: the master key (empty path) and
the child at hardened index `0x80000001`, for the seed `00 01 .. 1f` and
context string `"Zcash test vectors"`. -/
theorem arbitrary_test_vector_spec :
    (Arbitrary.from_path tvContext tvSeed []).sk =
      [0xe9, 0xda, 0x88, 0x06, 0x40, 0x9d, 0xc3, 0xc3, 0xeb, 0xd1, 0xfc, 0x2a, 0x71, 0xc8,
       0x79, 0xc1, 0x3d, 0xd7, 0xaa, 0x93, 0xed, 0xe8, 0x03, 0xbf, 0x1a, 0x83, 0x41, 0x4b,
       0x9d, 0x3b, 0x15, 0x8a] ∧
    (Arbitrary.from_path tvContext tvSeed []).chain_code =
      [0x65, 0xa7, 0x48, 0xf2, 0x90, 0x5f, 0x7a, 0x8a, 0xab, 0x9f, 0x3d, 0x02, 0xf1, 0xb2,
       0x6c, 0x3d, 0x65, 0xc8, 0x29, 0x94, 0xce, 0x59, 0xa0, 0x86, 0xd4, 0xc6, 0x51, 0xd8,
       0xa8, 0x1c, 0xec, 0x51] ∧
    (Arbitrary.from_path tvContext tvSeed [0x80000001]).sk =
      [0xe8, 0x40, 0x9a, 0xaa, 0x83, 0x2c, 0xc2, 0x37, 0x8f, 0x2b, 0xad, 0xeb, 0x77, 0x15,
       0x05, 0x62, 0x15, 0x37, 0x42, 0xfe, 0xe8, 0x76, 0xdc, 0xf4, 0x78, 0x3a, 0x6c, 0xcd,
       0x11, 0x9d, 0xa6, 0x6a] ∧
    (Arbitrary.from_path tvContext tvSeed [0x80000001]).chain_code =
      [0xcc, 0x08, 0x49, 0x22, 0xa0, 0xea, 0xd2, 0xda, 0x53, 0x38, 0xbd, 0x82, 0x20, 0x0a,
       0x19, 0x46, 0xbc, 0x85, 0x85, 0xb8, 0xd9, 0xee, 0x41, 0x6d, 0xf6, 0xa0, 0x9a, 0x71,
       0xab, 0x0e, 0x5b, 0x58] := by
  decide

/-- Supporting evidence for the domain-separation property: at the
test-vector context string and seed, the ad-hoc and registered master keys
differ (the full universally-quantified statement is a collision-resistance
assumption about BLAKE2b and is not provable in this embedding). -/
theorem adhoc_registered_master_distinct_tv :
    Arbitrary.master tvContext tvSeed ≠ Registered.master tvContext tvSeed := by
  decide

/-- Supporting evidence for the full-width/split-key independence property:
at the registered test-vector path, the 64-byte full-width cryptovalue
differs from the concatenation of the derived child key's secret and chain
code (again, the universally-quantified statement is a collision-resistance
assumption). -/
theorem full_width_differs_from_concat_tv :
    Registered.derive_child_cryptovalue tvRegKey 2147483650 tvTag ≠
      (Registered.derive_child_with_tag tvRegKey 2147483650 tvTag).sk ++
        (Registered.derive_child_with_tag tvRegKey 2147483650 tvTag).chain_code := by
  decide

/-- Sanity check of the BLAKE2b-256 instantiation: the published seed
fingerprint test vector. -/
theorem seed_fingerprint_test_vector :
    SeedFingerprint.from_seed tvSeed =
      some [0xde, 0xff, 0x60, 0x4c, 0x24, 0x67, 0x10, 0xf7, 0x17, 0x6d, 0xea, 0xd0, 0x2a, 0xa7,
            0x46, 0xf2, 0xfd, 0x8d, 0x53, 0x89, 0xf7, 0x07, 0x25, 0x56, 0xdc, 0xb5, 0x55, 0xfd,
            0xbe, 0x5e, 0x3a, 0xe3] := by
  decide

/-! ### Bitwise arithmetic helpers for the Bech32m checksum -/

theorem xor_mod_two_pow (x y k : Nat) : (x ^^^ y) % 2 ^ k = x % 2 ^ k ^^^ y % 2 ^ k := by
  rw [← Nat.and_pow_two_sub_one_eq_mod, ← Nat.and_pow_two_sub_one_eq_mod,
    ← Nat.and_pow_two_sub_one_eq_mod, Nat.and_xor_distrib_right]

theorem xor_div_two_pow (x y k : Nat) : (x ^^^ y) / 2 ^ k = x / 2 ^ k ^^^ y / 2 ^ k := by
  induction k with
  | zero => simp
  | succ k ih =>
    rw [Nat.pow_succ, ← Nat.div_div_eq_div_mul, ← Nat.div_div_eq_div_mul,
      ← Nat.div_div_eq_div_mul, ih, Nat.xor_div_two]

theorem xor_shiftLeft_distrib (x y k : Nat) : (x ^^^ y) <<< k = x <<< k ^^^ y <<< k := by
  apply Nat.eq_of_testBit_eq
  intro i
  simp [Nat.testBit_shiftLeft, Nat.testBit_xor, Bool.and_xor_distrib_left]

theorem shiftLeft5_xor_mod_eq_add (a b : Nat) : a <<< 5 ^^^ b % 32 = 32 * a + b % 32 := by
  have h32 : a <<< 5 = 32 * a := by rw [Nat.shiftLeft_eq]; ring
  have h5 : (32 : Nat) = 2 ^ 5 := by norm_num
  have hmod : (a <<< 5 ^^^ b % 32) % 32 = b % 32 := by
    conv_lhs => rw [h5, xor_mod_two_pow]
    rw [← h5, h32, Nat.mul_mod_right, Nat.zero_xor]
    omega
  have hdiv : (a <<< 5 ^^^ b % 32) / 32 = a := by
    conv_lhs => rw [h5, xor_div_two_pow]
    rw [← h5, h32, Nat.mul_div_cancel_left _ (by norm_num : (0 : Nat) < 32),
      Nat.div_eq_of_lt (Nat.mod_lt _ (by norm_num)), Nat.xor_zero]
  have := Nat.div_add_mod (a <<< 5 ^^^ b % 32) 32
  omega

theorem shiftLeft_lt_of_lt (a k n : Nat) (h : a < 2 ^ n) : a <<< k < 2 ^ (n + k) := by
  rw [Nat.shiftLeft_eq, Nat.pow_add]
  exact (Nat.mul_lt_mul_right (Nat.two_pow_pos k)).mpr h

theorem genTerms_lt (b : Nat) : genTerms b < 2 ^ 30 := by
  unfold genTerms
  split_ifs <;> decide

theorem polymodStepBase_lt (chk : Nat) : polymodStepBase chk < 2 ^ 30 := by
  unfold polymodStepBase
  apply Nat.xor_lt_two_pow _ (genTerms_lt _)
  have h1 : chk &&& 0x1ffffff < 2 ^ 25 := Nat.and_lt_two_pow _ (by norm_num)
  have := shiftLeft_lt_of_lt (chk &&& 0x1ffffff) 5 25 h1
  simpa using this

theorem polymodStep_lt (chk v : Nat) (hv : v < 32) : polymodStep chk v < 2 ^ 30 :=
  Nat.xor_lt_two_pow (polymodStepBase_lt chk) (by omega)

theorem foldl_polymodStep_lt (vs : List Nat) (hvs : ∀ v ∈ vs, v < 32) (chk : Nat)
    (hchk : chk < 2 ^ 30) : vs.foldl polymodStep chk < 2 ^ 30 := by
  induction vs generalizing chk with
  | nil => exact hchk
  | cons v rest ih =>
    exact ih (fun x hx => hvs x (by simp [hx])) _ (polymodStep_lt chk v (hvs v (by simp)))

theorem xor4_rearrange (A E G V : Nat) :
    ((A ^^^ E) ^^^ G) ^^^ V = ((A ^^^ G) ^^^ 0) ^^^ (E ^^^ V) := by
  rw [Nat.xor_zero, Nat.xor_assoc A E G, Nat.xor_comm E G, ← Nat.xor_assoc A G E,
    Nat.xor_assoc (A ^^^ G) E V]

theorem polymodStep_err (Z e v : Nat) (he : e < 2 ^ 25) :
    polymodStep (Z ^^^ e) v = polymodStep Z 0 ^^^ (e <<< 5 ^^^ v) := by
  unfold polymodStep polymodStepBase
  have h1 : (Z ^^^ e) >>> 25 = Z >>> 25 := by
    rw [Nat.shiftRight_eq_div_pow, Nat.shiftRight_eq_div_pow, xor_div_two_pow,
      Nat.div_eq_of_lt he, Nat.xor_zero]
  have h2 : (Z ^^^ e) &&& 0x1ffffff = (Z &&& 0x1ffffff) ^^^ e := by
    rw [Nat.and_xor_distrib_right]
    congr 1
    have h25 : (0x1ffffff : Nat) = 2 ^ 25 - 1 := by norm_num
    rw [h25, Nat.and_pow_two_sub_one_eq_mod, Nat.mod_eq_of_lt he]
  rw [h1, h2, xor_shiftLeft_distrib]
  exact xor4_rearrange _ _ _ _

theorem polymodStep_first (K c : Nat) : polymodStep K c = polymodStep K 0 ^^^ c := by
  unfold polymodStep
  rw [Nat.xor_zero]

theorem xor_lt_pack (n e c : Nat) (he : e < 2 ^ n) (hc : c < 32) :
    e <<< 5 ^^^ c < 2 ^ (n + 5) := by
  apply Nat.xor_lt_two_pow (shiftLeft_lt_of_lt e 5 n he)
  calc c < 32 := hc
    _ = 2 ^ 5 := by norm_num
    _ ≤ 2 ^ (n + 5) := Nat.pow_le_pow_right (by norm_num) (by omega)

theorem foldl_six_xor (K c0 c1 c2 c3 c4 c5 : Nat)
    (h0 : c0 < 32) (h1 : c1 < 32) (h2 : c2 < 32) (h3 : c3 < 32) (h4 : c4 < 32) (h5 : c5 < 32) :
    [c0, c1, c2, c3, c4, c5].foldl polymodStep K =
      ([0, 0, 0, 0, 0, 0] : List Nat).foldl polymodStep K ^^^
        (((((c0 <<< 5 ^^^ c1) <<< 5 ^^^ c2) <<< 5 ^^^ c3) <<< 5 ^^^ c4) <<< 5 ^^^ c5) := by
  have hb2 : c0 <<< 5 ^^^ c1 < 2 ^ 10 := xor_lt_pack 5 c0 c1 (by omega) h1
  have hb3 : (c0 <<< 5 ^^^ c1) <<< 5 ^^^ c2 < 2 ^ 15 := xor_lt_pack 10 _ c2 hb2 h2
  have hb4 : ((c0 <<< 5 ^^^ c1) <<< 5 ^^^ c2) <<< 5 ^^^ c3 < 2 ^ 20 :=
    xor_lt_pack 15 _ c3 hb3 h3
  have hb5 : (((c0 <<< 5 ^^^ c1) <<< 5 ^^^ c2) <<< 5 ^^^ c3) <<< 5 ^^^ c4 < 2 ^ 25 :=
    xor_lt_pack 20 _ c4 hb4 h4
  simp only [List.foldl]
  rw [polymodStep_first K c0,
    polymodStep_err (polymodStep K 0) c0 c1 (by omega),
    polymodStep_err (polymodStep (polymodStep K 0) 0) (c0 <<< 5 ^^^ c1) c2
      (Nat.lt_of_lt_of_le hb2 (by norm_num)),
    polymodStep_err _ ((c0 <<< 5 ^^^ c1) <<< 5 ^^^ c2) c3
      (Nat.lt_of_lt_of_le hb3 (by norm_num)),
    polymodStep_err _ (((c0 <<< 5 ^^^ c1) <<< 5 ^^^ c2) <<< 5 ^^^ c3) c4
      (Nat.lt_of_lt_of_le hb4 (by norm_num)),
    polymodStep_err _ ((((c0 <<< 5 ^^^ c1) <<< 5 ^^^ c2) <<< 5 ^^^ c3) <<< 5 ^^^ c4) c5 hb5]

theorem pack_unpack (P : Nat) (hP : P < 2 ^ 30) :
    (((((P >>> 25 &&& 31) <<< 5 ^^^ (P >>> 20 &&& 31)) <<< 5 ^^^ (P >>> 15 &&& 31)) <<< 5 ^^^
      (P >>> 10 &&& 31)) <<< 5 ^^^ (P >>> 5 &&& 31)) <<< 5 ^^^ (P &&& 31) = P := by
  have hm : ∀ x : Nat, x &&& 31 = x % 32 := by
    intro x
    have h31 : (31 : Nat) = 2 ^ 5 - 1 := by norm_num
    rw [h31, Nat.and_pow_two_sub_one_eq_mod]
  have hs : ∀ k : Nat, P >>> k = P / 2 ^ k := fun k => Nat.shiftRight_eq_div_pow P k
  simp only [hm, hs]
  simp only [shiftLeft5_xor_mod_eq_add]
  have hexp : ((2:Nat) ^ 25 = 33554432) ∧ ((2:Nat) ^ 20 = 1048576) ∧ ((2:Nat) ^ 15 = 32768) ∧
      ((2:Nat) ^ 10 = 1024) ∧ ((2:Nat) ^ 5 = 32) ∧ ((2:Nat) ^ 30 = 1073741824) := by
    norm_num
  rw [hexp.1, hexp.2.1, hexp.2.2.1, hexp.2.2.2.1, hexp.2.2.2.2.1]
  rw [hexp.2.2.2.2.2] at hP
  omega

theorem and31_lt (x : Nat) : x &&& 31 < 32 := by
  have h31 : (31 : Nat) = 2 ^ 5 - 1 := by norm_num
  rw [h31, Nat.and_pow_two_sub_one_eq_mod]
  exact Nat.mod_lt _ (by norm_num)

theorem verify_createChecksum (hrp data : List Nat)
    (hhrp : ∀ v ∈ hrpExpand hrp, v < 32) (hdata : ∀ v ∈ data, v < 32) :
    polymod (hrpExpand hrp ++ (data ++ createChecksum hrp data)) = bech32mConst := by
  simp only [createChecksum]
  unfold polymod
  have hzeros : ∀ v ∈ hrpExpand hrp ++ (data ++ ([0, 0, 0, 0, 0, 0] : List Nat)), v < 32 := by
    intro v hv
    rcases List.mem_append.mp hv with h | h
    · exact hhrp v h
    · rcases List.mem_append.mp h with h | h
      · exact hdata v h
      · simp at h
        omega
  have hP0lt : List.foldl polymodStep 1 (hrpExpand hrp ++ data ++ [0, 0, 0, 0, 0, 0]) < 2 ^ 30 := by
    rw [List.append_assoc]
    exact foldl_polymodStep_lt _ hzeros 1 (by norm_num)
  have hpm : List.foldl polymodStep 1 (hrpExpand hrp ++ data ++ [0, 0, 0, 0, 0, 0]) ^^^
      bech32mConst < 2 ^ 30 :=
    Nat.xor_lt_two_pow hP0lt (by decide)
  rw [← List.append_assoc]
  rw [List.foldl_append]
  rw [foldl_six_xor _ _ _ _ _ _ _ (and31_lt _) (and31_lt _) (and31_lt _) (and31_lt _)
    (and31_lt _) (and31_lt _)]
  rw [pack_unpack _ hpm]
  rw [← List.foldl_append]
  rw [← Nat.xor_assoc, Nat.xor_self, Nat.zero_xor]

/-! ### Bit-regrouping helpers -/

theorem bitsVal_lt (l : List Bool) : bitsVal l < 2 ^ l.length := by
  have aux : ∀ (l : List Bool) (acc : Nat),
      l.foldl (fun acc b => 2 * acc + (if b then 1 else 0)) acc < (acc + 1) * 2 ^ l.length := by
    intro l
    induction l with
    | nil => intro acc; simp
    | cons b rest ih =>
      intro acc
      have h := ih (2 * acc + (if b then 1 else 0))
      have hle : (2 * acc + (if b then 1 else 0) + 1) * 2 ^ rest.length ≤
          (acc + 1) * 2 ^ (b :: rest).length := by
        simp only [List.length_cons, Nat.pow_succ]
        by_cases hb : b <;> simp [hb] <;> ring_nf <;> omega
      exact Nat.lt_of_lt_of_le h hle
  simpa [bitsVal] using aux l 0

theorem bitsToFe32s_lt (bits : List Bool) : ∀ d ∈ bitsToFe32s bits, d < 32 := by
  induction bits using bitsToFe32s.induct with
  | case1 b0 b1 b2 b3 b4 rest ih =>
    intro d hd
    have hred : bitsToFe32s (b0 :: b1 :: b2 :: b3 :: b4 :: rest) =
        bitsVal [b0, b1, b2, b3, b4] :: bitsToFe32s rest := rfl
    rw [hred] at hd
    rcases List.mem_cons.mp hd with h | h
    · subst h
      exact bitsVal_lt [b0, b1, b2, b3, b4]
    · exact ih d h
  | case2 =>
    intro d hd
    simp [bitsToFe32s] at hd
  | case3 rest h1 h2 =>
    intro d hd
    rcases rest with _ | ⟨a, rest⟩
    · exact absurd rfl h2
    rcases rest with _ | ⟨b, rest⟩
    · have hred : bitsToFe32s [a] = [bitsVal [a, false, false, false, false]] := rfl
      rw [hred] at hd
      rcases List.mem_cons.mp hd with h | h
      · subst h
        exact bitsVal_lt [a, false, false, false, false]
      · simp at h
    rcases rest with _ | ⟨c, rest⟩
    · have hred : bitsToFe32s [a, b] = [bitsVal [a, b, false, false, false]] := rfl
      rw [hred] at hd
      rcases List.mem_cons.mp hd with h | h
      · subst h
        exact bitsVal_lt [a, b, false, false, false]
      · simp at h
    rcases rest with _ | ⟨d2, rest⟩
    · have hred : bitsToFe32s [a, b, c] = [bitsVal [a, b, c, false, false]] := rfl
      rw [hred] at hd
      rcases List.mem_cons.mp hd with h | h
      · subst h
        exact bitsVal_lt [a, b, c, false, false]
      · simp at h
    rcases rest with _ | ⟨e, rest⟩
    · have hred : bitsToFe32s [a, b, c, d2] = [bitsVal [a, b, c, d2, false]] := rfl
      rw [hred] at hd
      rcases List.mem_cons.mp hd with h | h
      · subst h
        exact bitsVal_lt [a, b, c, d2, false]
      · simp at h
    · exact absurd rfl (h1 a b c d2 e rest)

theorem nat5Bits_bitsVal (b0 b1 b2 b3 b4 : Bool) :
    nat5Bits (bitsVal [b0, b1, b2, b3, b4]) = [b0, b1, b2, b3, b4] := by
  revert b0 b1 b2 b3 b4
  decide

theorem fe32sToBits_bitsToFe32s (bits : List Bool) :
    fe32sToBits (bitsToFe32s bits) =
      bits ++ List.replicate ((5 - bits.length % 5) % 5) false := by
  induction bits using bitsToFe32s.induct with
  | case1 b0 b1 b2 b3 b4 rest ih =>
    have hred : bitsToFe32s (b0 :: b1 :: b2 :: b3 :: b4 :: rest) =
        bitsVal [b0, b1, b2, b3, b4] :: bitsToFe32s rest := rfl
    rw [hred]
    have hcons : fe32sToBits (bitsVal [b0, b1, b2, b3, b4] :: bitsToFe32s rest) =
        nat5Bits (bitsVal [b0, b1, b2, b3, b4]) ++ fe32sToBits (bitsToFe32s rest) := by
      simp [fe32sToBits]
    rw [hcons, nat5Bits_bitsVal, ih]
    have hmod : ((b0 :: b1 :: b2 :: b3 :: b4 :: rest).length % 5) = rest.length % 5 := by
      simp [List.length_cons]
      omega
    rw [hmod]
    simp
  | case2 => simp [bitsToFe32s, fe32sToBits]
  | case3 rest h1 h2 =>
    rcases rest with _ | ⟨a, rest⟩
    · exact absurd rfl h2
    rcases rest with _ | ⟨b, rest⟩
    · have hred : bitsToFe32s [a] = [bitsVal [a, false, false, false, false]] := rfl
      rw [hred]
      have hfe : fe32sToBits [bitsVal [a, false, false, false, false]] =
          nat5Bits (bitsVal [a, false, false, false, false]) := by
        simp [fe32sToBits]
      rw [hfe, nat5Bits_bitsVal]
      simp [List.replicate]
    rcases rest with _ | ⟨c, rest⟩
    · have hred : bitsToFe32s [a, b] = [bitsVal [a, b, false, false, false]] := rfl
      rw [hred]
      have hfe : fe32sToBits [bitsVal [a, b, false, false, false]] =
          nat5Bits (bitsVal [a, b, false, false, false]) := by
        simp [fe32sToBits]
      rw [hfe, nat5Bits_bitsVal]
      simp [List.replicate]
    rcases rest with _ | ⟨d2, rest⟩
    · have hred : bitsToFe32s [a, b, c] = [bitsVal [a, b, c, false, false]] := rfl
      rw [hred]
      have hfe : fe32sToBits [bitsVal [a, b, c, false, false]] =
          nat5Bits (bitsVal [a, b, c, false, false]) := by
        simp [fe32sToBits]
      rw [hfe, nat5Bits_bitsVal]
      simp [List.replicate]
    rcases rest with _ | ⟨e, rest⟩
    · have hred : bitsToFe32s [a, b, c, d2] = [bitsVal [a, b, c, d2, false]] := rfl
      rw [hred]
      have hfe : fe32sToBits [bitsVal [a, b, c, d2, false]] =
          nat5Bits (bitsVal [a, b, c, d2, false]) := by
        simp [fe32sToBits]
      rw [hfe, nat5Bits_bitsVal]
      simp [List.replicate]
    · exact absurd rfl (h1 a b c d2 e rest)

theorem bitsVal_byteToBits : ∀ b : Nat, b < 256 → bitsVal (byteToBits b) = b := by
  decide

theorem bytesToBits_cons (b : Nat) (bs : List Nat) :
    bytesToBits (b :: bs) = byteToBits b ++ bytesToBits bs := by
  simp [bytesToBits]

theorem length_bytesToBits (bs : List Nat) : (bytesToBits bs).length = 8 * bs.length := by
  induction bs with
  | nil => simp [bytesToBits]
  | cons b rest ih =>
    rw [bytesToBits_cons]
    simp [ih, byteToBits]
    omega

theorem bitsToBytes_cons8 (t0 t1 t2 t3 t4 t5 t6 t7 : Bool) (r : List Bool) :
    bitsToBytes (t0 :: t1 :: t2 :: t3 :: t4 :: t5 :: t6 :: t7 :: r) =
      bitsVal [t0, t1, t2, t3, t4, t5, t6, t7] :: bitsToBytes r := rfl

theorem bitsToBytes_short (l : List Bool) (h : l.length < 8) : bitsToBytes l = [] := by
  rcases l with _ | ⟨a0, l⟩
  · rfl
  rcases l with _ | ⟨a1, l⟩
  · rfl
  rcases l with _ | ⟨a2, l⟩
  · rfl
  rcases l with _ | ⟨a3, l⟩
  · rfl
  rcases l with _ | ⟨a4, l⟩
  · rfl
  rcases l with _ | ⟨a5, l⟩
  · rfl
  rcases l with _ | ⟨a6, l⟩
  · rfl
  rcases l with _ | ⟨a7, l⟩
  · rfl
  · exfalso
    simp at h
    omega

theorem bitsToBytes_bytesToBits_append (bs : List Nat) (extra : List Bool)
    (hbs : ∀ b ∈ bs, b < 256) (hex : extra.length < 8) :
    bitsToBytes (bytesToBits bs ++ extra) = bs := by
  induction bs with
  | nil =>
    have : bytesToBits [] = [] := rfl
    rw [this, List.nil_append]
    exact bitsToBytes_short extra hex
  | cons b rest ih =>
    rw [bytesToBits_cons, List.append_assoc]
    have hb : b < 256 := hbs b (by simp)
    show bitsToBytes (byteToBits b ++ (bytesToBits rest ++ extra)) = b :: rest
    have hByte : byteToBits b = [b.testBit 7, b.testBit 6, b.testBit 5, b.testBit 4,
        b.testBit 3, b.testBit 2, b.testBit 1, b.testBit 0] := rfl
    rw [hByte]
    rw [show ([b.testBit 7, b.testBit 6, b.testBit 5, b.testBit 4, b.testBit 3, b.testBit 2,
        b.testBit 1, b.testBit 0] : List Bool) ++ (bytesToBits rest ++ extra) =
        b.testBit 7 :: b.testBit 6 :: b.testBit 5 :: b.testBit 4 :: b.testBit 3 :: b.testBit 2 ::
        b.testBit 1 :: b.testBit 0 :: (bytesToBits rest ++ extra) from rfl]
    rw [bitsToBytes_cons8]
    rw [show ([b.testBit 7, b.testBit 6, b.testBit 5, b.testBit 4, b.testBit 3, b.testBit 2,
        b.testBit 1, b.testBit 0] : List Bool) = byteToBits b from rfl]
    rw [bitsVal_byteToBits b hb]
    rw [ih (fun x hx => hbs x (by simp [hx]))]

/-! ### Separator splitting and charset facts -/

theorem takeWhile_append_all (p : Nat → Bool) (l r : List Nat) (h : ∀ a ∈ l, p a = true) :
    (l ++ r).takeWhile p = l ++ r.takeWhile p := by
  induction l with
  | nil => simp
  | cons a rest ih =>
    have ha : p a = true := h a (by simp)
    simp [List.takeWhile_cons, ha]
    exact ih (fun x hx => h x (by simp [hx]))

theorem dropWhile_append_all (p : Nat → Bool) (l r : List Nat) (h : ∀ a ∈ l, p a = true) :
    (l ++ r).dropWhile p = r.dropWhile p := by
  induction l with
  | nil => simp
  | cons a rest ih =>
    have ha : p a = true := h a (by simp)
    simp [List.dropWhile_cons, ha]
    exact ih (fun x hx => h x (by simp [hx]))

theorem splitLastSep_encode (hrp dataChars : List Nat) (hd : ∀ c ∈ dataChars, c ≠ 49) :
    splitLastSep (hrp ++ 49 :: dataChars) = some (hrp, dataChars) := by
  unfold splitLastSep
  have hrev : (hrp ++ 49 :: dataChars).reverse = dataChars.reverse ++ 49 :: hrp.reverse := by
    simp
  rw [hrev]
  have hall : ∀ a ∈ dataChars.reverse, (fun c => decide (c ≠ 49)) a = true := by
    intro a ha
    simp
    exact hd a (List.mem_reverse.mp ha)
  rw [dropWhile_append_all _ _ _ hall, takeWhile_append_all _ _ _ hall]
  simp [List.dropWhile_cons, List.takeWhile_cons]

theorem charset_facts : ∀ d : Nat, d < 32 →
    bech32Charset.getD d 0 ≠ 49 ∧ isUpperChar (bech32Charset.getD d 0) = false ∧
    33 ≤ bech32Charset.getD d 0 ∧ bech32Charset.getD d 0 ≤ 126 ∧
    toLowerChar (bech32Charset.getD d 0) = bech32Charset.getD d 0 ∧
    bech32Charset.indexOf? (bech32Charset.getD d 0) = some d := by
  decide

theorem mapCharsetRev_map (ds : List Nat) (h : ∀ d ∈ ds, d < 32) :
    mapCharsetRev (ds.map (fun d => bech32Charset.getD d 0)) = some ds := by
  induction ds with
  | nil => rfl
  | cons d rest ih =>
    have hd : d < 32 := h d (by simp)
    have hfacts := charset_facts d hd
    simp only [List.map_cons]
    unfold mapCharsetRev
    rw [hfacts.2.2.2.2.1, hfacts.2.2.2.2.2, ih (fun x hx => h x (by simp [hx]))]

theorem map_toLowerChar_id (l : List Nat) (h : ∀ c ∈ l, toLowerChar c = c) :
    l.map toLowerChar = l := by
  induction l with
  | nil => rfl
  | cons a rest ih =>
    simp [h a (by simp), ih (fun x hx => h x (by simp [hx]))]

theorem createChecksum_mem_lt (hrp data : List Nat) :
    ∀ d ∈ createChecksum hrp data, d < 32 := by
  intro d hd
  simp [createChecksum] at hd
  rcases hd with h | h | h | h | h | h <;> subst h <;> exact and31_lt _

theorem checkedHrpstring_encode (fp : List Nat) (hbytes : ∀ b ∈ fp, b < 256) :
    checkedHrpstring (SeedFingerprint.display fp) =
      Except.ok (seedFpHrp, bitsToFe32s (bytesToBits fp)) := by
  have hd32 : ∀ d ∈ bitsToFe32s (bytesToBits fp), d < 32 := bitsToFe32s_lt _
  have hvals : ∀ d ∈ bitsToFe32s (bytesToBits fp) ++
      createChecksum seedFpHrp (bitsToFe32s (bytesToBits fp)), d < 32 := by
    intro d hd
    rcases List.mem_append.mp hd with h | h
    · exact hd32 d h
    · exact createChecksum_mem_lt _ _ d h
  have hshape : SeedFingerprint.display fp = seedFpHrp ++ 49 ::
      ((bitsToFe32s (bytesToBits fp) ++
        createChecksum seedFpHrp (bitsToFe32s (bytesToBits fp))).map
          (fun d => bech32Charset.getD d 0)) := rfl
  have hcharsNo49 : ∀ c ∈ (bitsToFe32s (bytesToBits fp) ++
      createChecksum seedFpHrp (bitsToFe32s (bytesToBits fp))).map
        (fun d => bech32Charset.getD d 0), c ≠ 49 := by
    intro c hc
    rcases List.mem_map.mp hc with ⟨d, hd, rfl⟩
    exact (charset_facts d (hvals d hd)).1
  have hsUpper : (SeedFingerprint.display fp).any isUpperChar = false := by
    rw [hshape]
    rw [List.any_eq_false]
    intro c hc
    rcases List.mem_append.mp hc with h | h
    · have hhrp : ∀ x ∈ seedFpHrp, isUpperChar x = false := by decide
      simp [hhrp c h]
    · rcases List.mem_cons.mp h with h | h
      · subst h
        decide
      · rcases List.mem_map.mp h with ⟨d, hd, rfl⟩
        rw [(charset_facts d (hvals d hd)).2.1]
        simp
  have hsLower : (SeedFingerprint.display fp).map toLowerChar = SeedFingerprint.display fp := by
    rw [hshape]
    apply map_toLowerChar_id
    intro c hc
    rcases List.mem_append.mp hc with h | h
    · exact (by decide : ∀ x ∈ seedFpHrp, toLowerChar x = x) c h
    · rcases List.mem_cons.mp h with h | h
      · subst h
        decide
      · rcases List.mem_map.mp h with ⟨d, hd, rfl⟩
        exact (charset_facts d (hvals d hd)).2.2.2.2.1
  unfold checkedHrpstring
  rw [if_neg (by rw [hsUpper]; simp)]
  rw [hsLower, hshape]
  rw [splitLastSep_encode seedFpHrp _ hcharsNo49]
  simp only [mapCharsetRev_map _ hvals]
  rw [if_neg (by decide)]
  have hckslen : (createChecksum seedFpHrp (bitsToFe32s (bytesToBits fp))).length = 6 := by
    simp [createChecksum]
  have hlenapp : (bitsToFe32s (bytesToBits fp) ++
      createChecksum seedFpHrp (bitsToFe32s (bytesToBits fp))).length =
      (bitsToFe32s (bytesToBits fp)).length + 6 := by
    rw [List.length_append, hckslen]
  rw [if_neg (by omega)]
  rw [if_neg (by
    push_neg
    exact verify_createChecksum seedFpHrp (bitsToFe32s (bytesToBits fp)) (by decide) hd32)]
  rw [hlenapp]
  have htake : (bitsToFe32s (bytesToBits fp)).length + 6 - 6 =
      (bitsToFe32s (bytesToBits fp)).length := by omega
  rw [htake, List.take_left]

theorem display_from_str_roundtrip (fp : List Nat) (hlen : fp.length = 32)
    (hbytes : ∀ b ∈ fp, b < 256) :
    SeedFingerprint.from_str (SeedFingerprint.display fp) = Except.ok fp := by
  have hdata : fe32sToBytes (bitsToFe32s (bytesToBits fp)) = fp := by
    unfold fe32sToBytes
    rw [fe32sToBits_bitsToFe32s]
    have hblen : (bytesToBits fp).length = 256 := by
      rw [length_bytesToBits, hlen]
    rw [hblen]
    exact bitsToBytes_bytesToBits_append fp (List.replicate 4 false) hbytes (by simp)
  simp only [SeedFingerprint.from_str, checkedHrpstring_encode fp hbytes, if_true]
  rw [hdata]
  rw [if_pos hlen]


/-- C9: encoding a 32-byte fingerprint to its Bech32m text form and parsing
it back returns the original bytes; parsing a valid Bech32m string with an
HRP other than `"zip32seedfp"` fails with `NotASeedFingerprint`; parsing a
valid `"zip32seedfp"` string whose payload is not exactly 32 bytes fails
with `InvalidLength`; and a string that is not valid Bech32m fails with
`NotABech32mString`. -/
theorem seed_fingerprint_string_spec :
    (∀ fp : List Nat, fp.length = 32 → (∀ b ∈ fp, b < 256) →
      SeedFingerprint.from_str (SeedFingerprint.display fp) = Except.ok fp) ∧
    (∀ s hrp values, checkedHrpstring s = Except.ok (hrp, values) → hrp ≠ seedFpHrp →
      SeedFingerprint.from_str s = Except.error ParseError.NotASeedFingerprint) ∧
    (∀ s values, checkedHrpstring s = Except.ok (seedFpHrp, values) →
      (fe32sToBytes values).length ≠ 32 →
      SeedFingerprint.from_str s = Except.error ParseError.InvalidLength) ∧
    (∀ s e, checkedHrpstring s = Except.error e →
      SeedFingerprint.from_str s = Except.error (ParseError.NotABech32mString e)) := by
  refine ⟨fun fp h1 h2 => display_from_str_roundtrip fp h1 h2,
    fun s hrp values h hne => ?_, fun s values h hlen => ?_, fun s e h => ?_⟩
  · simp only [SeedFingerprint.from_str, h]
    rw [if_neg hne]
  · simp only [SeedFingerprint.from_str, h, eq_self_iff_true, if_true]
    rw [if_neg hlen]
  · simp only [SeedFingerprint.from_str, h]

theorem seed_fingerprint_string_spec_witness :
    SeedFingerprint.from_str (SeedFingerprint.display tvFingerprint) =
      Except.ok tvFingerprint ∧
    SeedFingerprint.from_str (bech32mEncode [97, 98, 99] []) =
      Except.error ParseError.NotASeedFingerprint ∧
    SeedFingerprint.from_str (bech32mEncode seedFpHrp [0]) =
      Except.error ParseError.InvalidLength ∧
    SeedFingerprint.from_str [49] =
      Except.error (ParseError.NotABech32mString Bech32DecodeError.InvalidHrp) :=
  ⟨seed_fingerprint_string_spec.1 tvFingerprint (by decide) (by decide),
   seed_fingerprint_string_spec.2.1 (bech32mEncode [97, 98, 99] []) [97, 98, 99] []
     (by decide) (by decide),
   seed_fingerprint_string_spec.2.2.1 (bech32mEncode seedFpHrp [0]) [0, 0]
     (by decide) (by decide),
   seed_fingerprint_string_spec.2.2.2 [49] Bech32DecodeError.InvalidHrp (by decide)⟩
